import Mathlib

/-!
# Verification of the `learning_APIs` notebook's request/parse flow

The repository is a notebook whose observable behaviour is built from two
components: a JSON Codec (`json.dumps` / `json.loads`) and an HTTP Requestor
(`requests.get`).  Both live in third-party libraries, not in the repository
itself, so they are modelled here from the specification: a recursively
defined Decoded JSON Value, an encoder producing the canonical textual
serialization (Python's default separators `", "` and `": "`), and a decoder
that either returns a complete value or fails (`Option.none` models raising
`ParseError`).  Numeric literals are modelled as integers: every number
appearing in the specified interfaces and mock bodies is an integer, and
fractional JSON numbers decode to IEEE floating point values, which do not
embed faithfully.  String escapes cover the backslash escapes of the JSON
grammar except `\uXXXX`.  The grammar relation `GVal` below is the
acceptance language of this modelled decoder, not RFC 8259: besides the
integer restriction and the missing `\uXXXX` escape it is lenient where
the standard is strict — it admits leading zeros in numerals and raw
control characters inside string literals.  Encoder outputs are canonical
(no leading zeros, quote and backslash escaped), so the round-trip
theorems are unaffected by the leniencies.
-/

/-- A Decoded JSON Value: null, boolean, number, string, ordered sequence,
or mapping from string keys to values, as in §3 of the specification. -/
inductive JsonValue where
  | null : JsonValue
  | bool (b : Bool) : JsonValue
  | num (n : Int) : JsonValue
  | str (s : String) : JsonValue
  | arr (elems : List JsonValue) : JsonValue
  | obj (members : List (String × JsonValue)) : JsonValue
deriving Repr

/-- JSON insignificant whitespace characters. -/
def isWs (c : Char) : Bool :=
  c = ' ' || c = '\t' || c = '\n' || c = '\r'

/-- Drop leading insignificant whitespace. -/
def skipWs : List Char → List Char
  | [] => []
  | c :: cs => if isWs c then skipWs cs else c :: cs

/-- Match an expected literal character sequence, returning the remainder. -/
def lit : List Char → List Char → Option (List Char)
  | [], cs => some cs
  | _ :: _, [] => none
  | a :: p, c :: cs => if c = a then lit p cs else none

/-- Resolve a backslash escape character of the JSON grammar. -/
def unescape (c : Char) : Option Char :=
  if c = '"' then some '"'
  else if c = '\\' then some '\\'
  else if c = '/' then some '/'
  else if c = 'b' then some (Char.ofNat 8)
  else if c = 'f' then some (Char.ofNat 12)
  else if c = 'n' then some '\n'
  else if c = 'r' then some '\r'
  else if c = 't' then some '\t'
  else none

/-- Lex the contents of a string literal (the opening quote already
consumed): returns the decoded characters and the input after the closing
quote, or `none` when the literal is unterminated or an escape is invalid. -/
def strChars : List Char → Option (List Char × List Char)
  | [] => none
  | c :: cs =>
    if c = '"' then some ([], cs)
    else if c = '\\' then
      match cs with
      | [] => none
      | e :: cs' =>
        match unescape e with
        | some d => (strChars cs').map (fun p => (d :: p.1, p.2))
        | none => none
    else (strChars cs).map (fun p => (c :: p.1, p.2))

/-- Numeric value of a digit run (most significant first). -/
def digitsToNat (ds : List Char) : Nat :=
  ds.foldl (fun a c => a * 10 + (c.toNat - 48)) 0

mutual

/-- Recursive-descent parser for a single JSON value.  `fuel` bounds the
recursion depth; `loads` supplies more fuel than the input length, which
suffices because every recursive call consumes at least one character. -/
def parseVal : Nat → List Char → Option (JsonValue × List Char)
  | 0, _ => none
  | _, [] => none
  | f + 1, c :: cs =>
    if c = 'n' then (lit ['u', 'l', 'l'] cs).map (fun r => (.null, r))
    else if c = 't' then (lit ['r', 'u', 'e'] cs).map (fun r => (.bool true, r))
    else if c = 'f' then (lit ['a', 'l', 's', 'e'] cs).map (fun r => (.bool false, r))
    else if c = '"' then (strChars cs).map (fun p => (.str (String.mk p.1), p.2))
    else if c = '-' then
      match List.span Char.isDigit cs with
      | (ds, rest) => if ds.isEmpty then none
          else some (.num (-(Int.ofNat (digitsToNat ds))), rest)
    else if c.isDigit then
      match List.span Char.isDigit (c :: cs) with
      | (ds, rest) => some (.num (Int.ofNat (digitsToNat ds)), rest)
    else if c = '[' then
      match skipWs cs with
      | ']' :: rest => some (.arr [], rest)
      | cs1 =>
        match parseVal f cs1 with
        | none => none
        | some (v, r1) =>
          match parseElems f (skipWs r1) with
          | none => none
          | some (vs, r2) => some (.arr (v :: vs), r2)
    else if c = '{' then
      match skipWs cs with
      | '}' :: rest => some (.obj [], rest)
      | '"' :: cs1 =>
        match strChars cs1 with
        | none => none
        | some (k, r1) =>
          match skipWs r1 with
          | ':' :: r2 =>
            match parseVal f (skipWs r2) with
            | none => none
            | some (v, r3) =>
              match parseMembers f (skipWs r3) with
              | none => none
              | some (ms, r4) => some (.obj ((String.mk k, v) :: ms), r4)
          | _ => none
      | _ => none
    else none

/-- Parse the remainder of an array after its first element: either the
closing bracket, or a comma followed by a value, repeatedly. -/
def parseElems : Nat → List Char → Option (List JsonValue × List Char)
  | 0, _ => none
  | _, [] => none
  | f + 1, c :: cs =>
    if c = ']' then some ([], cs)
    else if c = ',' then
      match parseVal f (skipWs cs) with
      | none => none
      | some (v, r) =>
        match parseElems f (skipWs r) with
        | none => none
        | some (vs, r2) => some (v :: vs, r2)
    else none

/-- Parse the remainder of an object after its first member: either the
closing brace, or a comma followed by a `"key": value` member, repeatedly. -/
def parseMembers : Nat → List Char → Option (List (String × JsonValue) × List Char)
  | 0, _ => none
  | _, [] => none
  | f + 1, c :: cs =>
    if c = '}' then some ([], cs)
    else if c = ',' then
      match skipWs cs with
      | '"' :: cs1 =>
        match strChars cs1 with
        | none => none
        | some (k, r1) =>
          match skipWs r1 with
          | ':' :: r2 =>
            match parseVal f (skipWs r2) with
            | none => none
            | some (v, r3) =>
              match parseMembers f (skipWs r3) with
              | none => none
              | some (ms, r4) => some ((String.mk k, v) :: ms, r4)
          | _ => none
      | _ => none
    else none

end

namespace Json

/-- Modelled from the spec: `json.loads` — decode a textual serialization
into a Decoded JSON Value, or fail (`none` models raising `ParseError`)
when the text is not well-formed; no partial value is ever produced. -/
def loads (s : String) : Option JsonValue :=
  match parseVal (s.length + 1) (skipWs s.data) with
  | some (v, rest) => if skipWs rest = [] then some v else none
  | none => none

end Json

/-- Escape one character for a JSON string literal (quote and backslash). -/
def escapeChar (c : Char) : List Char :=
  if c = '"' then ['\\', '"'] else if c = '\\' then ['\\', '\\'] else [c]

/-- Escape the characters of a string body. -/
def strEsc (s : List Char) : List Char :=
  match s with
  | [] => []
  | c :: cs => escapeChar c ++ strEsc cs

/-- Decimal digit characters of a natural number, most significant first. -/
def natChars (n : Nat) : List Char :=
  if _ : n < 10 then [Nat.digitChar n]
  else natChars (n / 10) ++ [Nat.digitChar (n % 10)]
decreasing_by exact Nat.div_lt_self (by omega) (by omega)

/-- Decimal representation of an integer. -/
def intChars (n : Int) : List Char :=
  if n < 0 then '-' :: natChars n.natAbs else natChars n.toNat

mutual

/-- Canonical serialization of a Decoded JSON Value, with Python's default
separators: `", "` between items and `": "` after keys. -/
def encodeVal : JsonValue → List Char
  | .null => 'n' :: ['u', 'l', 'l']
  | .bool true => 't' :: ['r', 'u', 'e']
  | .bool false => 'f' :: ['a', 'l', 's', 'e']
  | .num n => intChars n
  | .str s => '"' :: (strEsc s.data ++ ['"'])
  | .arr [] => ['[', ']']
  | .arr (v :: vs) => '[' :: (encodeVal v ++ encodeTail vs ++ [']'])
  | .obj [] => ['{', '}']
  | .obj (m :: ms) => '{' :: (encodeMember m ++ encodeMTail ms ++ ['}'])

/-- Serialize one `"key": value` object member. -/
def encodeMember : String × JsonValue → List Char
  | (k, v) => '"' :: (strEsc k.data ++ ['"', ':', ' '] ++ encodeVal v)

/-- Serialize the remaining array elements, each preceded by `", "`. -/
def encodeTail : List JsonValue → List Char
  | [] => []
  | v :: vs => ',' :: ' ' :: (encodeVal v ++ encodeTail vs)

/-- Serialize the remaining object members, each preceded by `", "`. -/
def encodeMTail : List (String × JsonValue) → List Char
  | [] => []
  | m :: ms => ',' :: ' ' :: (encodeMember m ++ encodeMTail ms)

end

namespace Json

/-- Modelled from the spec: `json.dumps` — the canonical textual
serialization of a Decoded JSON Value. -/
def dumps (v : JsonValue) : String :=
  String.mk (encodeVal v)

end Json

mutual

/-- The grammar of the modelled codec (the JSON grammar with the declared
deviations of the module comment — integer numerals only, no `\uXXXX`
escape, lenient about leading zeros and raw control characters):
`GVal cs v rest` means an initial segment of `cs` is a serialization of
the value `v` and `rest` is what follows it. -/
inductive GVal : List Char → JsonValue → List Char → Prop where
  | gnull : ∀ rest, GVal (['n', 'u', 'l', 'l'] ++ rest) .null rest
  | gtrue : ∀ rest, GVal (['t', 'r', 'u', 'e'] ++ rest) (.bool true) rest
  | gfalse : ∀ rest, GVal (['f', 'a', 'l', 's', 'e'] ++ rest) (.bool false) rest
  | gstr : ∀ cs s rest, strChars cs = some (s, rest) →
      GVal ('"' :: cs) (.str (String.mk s)) rest
  | gnum : ∀ cs ds rest, List.span Char.isDigit cs = (ds, rest) → ds ≠ [] →
      GVal cs (.num (Int.ofNat (digitsToNat ds))) rest
  | gneg : ∀ cs ds rest, List.span Char.isDigit cs = (ds, rest) → ds ≠ [] →
      GVal ('-' :: cs) (.num (-(Int.ofNat (digitsToNat ds)))) rest
  | garrNil : ∀ cs rest, skipWs cs = ']' :: rest → GVal ('[' :: cs) (.arr []) rest
  | garrCons : ∀ cs v r vs rest, GVal (skipWs cs) v r → GElems (skipWs r) vs rest →
      GVal ('[' :: cs) (.arr (v :: vs)) rest
  | gobjNil : ∀ cs rest, skipWs cs = '}' :: rest → GVal ('{' :: cs) (.obj []) rest
  | gobjCons : ∀ cs cs1 k r1 r2 v r3 ms rest, skipWs cs = '"' :: cs1 →
      strChars cs1 = some (k, r1) → skipWs r1 = ':' :: r2 →
      GVal (skipWs r2) v r3 → GMembers (skipWs r3) ms rest →
      GVal ('{' :: cs) (.obj ((String.mk k, v) :: ms)) rest

/-- Grammar of an array continuation after its first element: a closing
bracket, or comma-separated further elements. -/
inductive GElems : List Char → List JsonValue → List Char → Prop where
  | gnil : ∀ rest, GElems (']' :: rest) [] rest
  | gcons : ∀ cs v r vs rest, GVal (skipWs cs) v r → GElems (skipWs r) vs rest →
      GElems (',' :: cs) (v :: vs) rest

/-- Grammar of an object continuation after its first member: a closing
brace, or comma-separated further `"key": value` members. -/
inductive GMembers : List Char → List (String × JsonValue) → List Char → Prop where
  | gnil : ∀ rest, GMembers ('}' :: rest) [] rest
  | gcons : ∀ cs cs1 k r1 r2 v r3 ms rest, skipWs cs = '"' :: cs1 →
      strChars cs1 = some (k, r1) → skipWs r1 = ':' :: r2 →
      GVal (skipWs r2) v r3 → GMembers (skipWs r3) ms rest →
      GMembers (',' :: cs) ((String.mk k, v) :: ms) rest

end

/-- The texts the modelled decoder accepts: after stripping surrounding
whitespace, exactly one serialized value of the modelled grammar (not
RFC 8259 well-formedness; see the module comment). -/
def modelAccepts (s : String) : Prop :=
  ∃ v rest, GVal (skipWs s.data) v rest ∧ skipWs rest = []

/-- The remainder list does not begin with a decimal digit (so a maximal
digit run cannot be extended into it). -/
def noDigitHead : List Char → Prop
  | [] => True
  | c :: _ => ¬ c.isDigit

/-- The list is empty or begins with a non-whitespace character, so
`skipWs` leaves it unchanged. -/
def headNotWs : List Char → Prop
  | [] => True
  | c :: _ => isWs c = false

/-- Python subscripting `j[k]` on a decoded value: yields the value at a
string key of a mapping, and fails (`none`, modelling a raised `KeyError`
or `TypeError`) when the key is absent or the value is not a mapping. -/
def JsonValue.getKey : JsonValue → String → Option JsonValue
  | .obj ms, k => ms.lookup k
  | _, _ => none

/-- Python subscripting `j[i]` on a decoded value: yields the element at a
position of a sequence, and fails (`none`, modelling a raised `IndexError`
or `TypeError`) when the index is out of range or the value is not a
sequence. -/
def JsonValue.getIdx : JsonValue → Nat → Option JsonValue
  | .arr vs, i => vs.get? i
  | _, _ => none

/-- An HTTP Response: status code, header mapping and raw body, named as
the `requests` response attributes used in the notebook. -/
structure Response where
  status_code : Nat
  headers : List (String × String)
  content : String

/-- Modelled from the spec: the transport failures of §7 — network
unreachability, DNS failure, or timeout. -/
inductive TransportError where
  | unreachable : TransportError
  | dnsFailure : TransportError
  | timeout : TransportError

/-- The external network: what a GET of a URL with query parameters
returns — a Response, or a transport failure. -/
def Network : Type :=
  String → List (String × String) → Except TransportError Response

/-- Modelled from the spec: `requests.get` — a single synchronous GET
request; the response or transport failure produced by the network is
passed to the caller unchanged, with no retry, no caching, and no
inspection of the status code. -/
def requestsGet (net : Network) (url : String)
    (params : List (String × String)) : Except TransportError Response :=
  net url params

/-- Does the `Content-Type` header indicate JSON (as in the notebook's
`response.headers['Content-Type']` check, which prints
`application/json`)? -/
def Response.contentTypeIsJson (r : Response) : Bool :=
  match r.headers.lookup "Content-Type" with
  | some v => v = "application/json"
  | none => false

/-- Modelled from the spec: the convenience decode-to-structured-value
operation of a Response (`response.json()`), provided exactly when the
`Content-Type` header indicates JSON. -/
def Response.json (r : Response) : Option JsonValue :=
  if r.contentTypeIsJson then Json.loads r.content else none

/-- Modelled from the spec: the notebook's request-then-decode flow — send
the GET, then surface the status code as a plain value together with the
decoded body; no status-code validation happens anywhere in between. -/
def getAndDecode (net : Network) (url : String)
    (params : List (String × String)) :
    Except TransportError (Nat × Option JsonValue) :=
  match requestsGet net url params with
  | .error e => .error e
  | .ok r => .ok (r.status_code, r.json)

/-- The astros endpoint mock response body recorded in the notebook:
`message`, `number` 7, and the seven `people`. -/
def astrosBody : String :=
  "\x7b\"message\": \"success\", \"number\": 7, \"people\": [\x7b\"craft\": \"ISS\", \"name\": \"Sergey Ryzhikov\"\x7d, \x7b\"craft\": \"ISS\", \"name\": \"Kate Rubins\"\x7d, \x7b\"craft\": \"ISS\", \"name\": \"Sergey Kud-Sverchkov\"\x7d, \x7b\"craft\": \"ISS\", \"name\": \"Mike Hopkins\"\x7d, \x7b\"craft\": \"ISS\", \"name\": \"Victor Glover\"\x7d, \x7b\"craft\": \"ISS\", \"name\": \"Shannon Walker\"\x7d, \x7b\"craft\": \"ISS\", \"name\": \"Soichi Noguchi\"\x7d]\x7d"

/-- The iss-pass endpoint mock response body of the specification:
`response` is the recorded list of five duration/risetime passes. -/
def issPassBody : String :=
  "\x7b\"response\": [\x7b\"duration\": 611, \"risetime\": 1615355909\x7d, \x7b\"duration\": 635, \"risetime\": 1615361699\x7d, \x7b\"duration\": 524, \"risetime\": 1615367612\x7d, \x7b\"duration\": 498, \"risetime\": 1615373514\x7d, \x7b\"duration\": 608, \"risetime\": 1615379330\x7d]\x7d"

/-- The headers of the iss-now response recorded in the notebook's first
cell. -/
def issNowHeaders : List (String × String) :=
  [("Server", "nginx/1.10.3"), ("Date", "Tue, 09 Mar 2021 19:19:29 GMT"),
   ("Content-Type", "application/json"), ("Content-Length", "112"),
   ("Connection", "keep-alive"), ("access-control-allow-origin", "*")]

theorem lit_eq_some : ∀ (p cs r : List Char), lit p cs = some r ↔ cs = p ++ r := by
  intro p
  induction p with
  | nil => intro cs r; simp [lit]
  | cons a p ih =>
    intro cs r
    cases cs with
    | nil => simp [lit]
    | cons c cs =>
      simp only [lit, List.cons_append]
      by_cases hc : c = a
      · subst hc; simp [ih]
      · simp [hc, Ne.symm hc]

theorem skipWs_length : ∀ cs : List Char, (skipWs cs).length ≤ cs.length := by
  intro cs
  induction cs with
  | nil => simp [skipWs]
  | cons c cs ih =>
    simp only [skipWs]
    split
    · exact Nat.le_succ_of_le ih
    · simp

theorem skipWs_not_ws {c : Char} (cs : List Char) (h : isWs c = false) :
    skipWs (c :: cs) = c :: cs := by
  simp [skipWs, h]

theorem skipWs_ws {c : Char} (cs : List Char) (h : isWs c = true) :
    skipWs (c :: cs) = skipWs cs := by
  simp [skipWs, h]

theorem strChars_nil : strChars [] = none := by
  rw [strChars.eq_def]

theorem strChars_quote (cs : List Char) : strChars ('"' :: cs) = some ([], cs) := by
  rw [strChars.eq_def]
  simp

theorem strChars_bs_nil : strChars ['\\'] = none := by
  rw [strChars.eq_def]
  simp

theorem strChars_esc_some (e : Char) (cs : List Char) (d : Char)
    (hd : unescape e = some d) :
    strChars ('\\' :: e :: cs) = (strChars cs).map (fun p => (d :: p.1, p.2)) := by
  rw [strChars.eq_def]
  simp [hd]

theorem strChars_esc_none (e : Char) (cs : List Char) (hd : unescape e = none) :
    strChars ('\\' :: e :: cs) = none := by
  rw [strChars.eq_def]
  simp [hd]

theorem strChars_raw (c : Char) (cs : List Char) (h1 : c ≠ '"') (h2 : c ≠ '\\') :
    strChars (c :: cs) = (strChars cs).map (fun p => (c :: p.1, p.2)) := by
  rw [strChars.eq_def]
  simp [h1, h2]

theorem strChars_length :
    ∀ (cs s r : List Char), strChars cs = some (s, r) → r.length < cs.length := by
  intro cs
  induction cs using strChars.induct with
  | case1 =>
    intro s r h
    simp [strChars_nil] at h
  | case2 cs' =>
    intro s r h
    rw [strChars_quote] at h
    simp only [Option.some.injEq, Prod.mk.injEq] at h
    obtain ⟨rfl, rfl⟩ := h
    simp
  | case3 hb =>
    intro s r h
    simp [strChars_bs_nil] at h
  | case4 e cs' d hd hb ih =>
    intro s r h
    rw [strChars_esc_some e cs' d hd] at h
    simp only [Option.map_eq_some', Prod.mk.injEq] at h
    obtain ⟨⟨s', r'⟩, hsc, _, rfl⟩ := h
    have := ih s' r' hsc
    simp only [List.length_cons]
    omega
  | case5 e cs' hd hb =>
    intro s r h
    simp [strChars_esc_none e cs' hd] at h
  | case6 e cs' h1 h2 ih =>
    intro s r h
    rw [strChars_raw e cs' h1 h2] at h
    simp only [Option.map_eq_some', Prod.mk.injEq] at h
    obtain ⟨⟨s', r'⟩, hsc, _, rfl⟩ := h
    have := ih s' r' hsc
    simp only [List.length_cons]
    omega

theorem digitChar_isDigit {d : Nat} (h : d < 10) : (Nat.digitChar d).isDigit := by
  interval_cases d <;> decide

theorem digitChar_toNat {d : Nat} (h : d < 10) : (Nat.digitChar d).toNat - 48 = d := by
  interval_cases d <;> decide

theorem digitsToNat_append (ds : List Char) (c : Char) :
    digitsToNat (ds ++ [c]) = digitsToNat ds * 10 + (c.toNat - 48) := by
  simp [digitsToNat, List.foldl_append]

theorem natChars_ne_nil (n : Nat) : natChars n ≠ [] := by
  rw [natChars]
  split
  · simp
  · simp

theorem natChars_all_digits (n : Nat) : ∀ c ∈ natChars n, c.isDigit := by
  induction n using natChars.induct with
  | case1 n h =>
    rw [natChars, dif_pos h]
    simp [digitChar_isDigit h]
  | case2 n h ih =>
    rw [natChars, dif_neg h]
    intro c hc
    rcases List.mem_append.mp hc with hm | hm
    · exact ih c hm
    · simp only [List.mem_singleton] at hm
      subst hm
      exact digitChar_isDigit (Nat.mod_lt n (by omega))

theorem digitsToNat_natChars (n : Nat) : digitsToNat (natChars n) = n := by
  induction n using natChars.induct with
  | case1 n h =>
    rw [natChars, dif_pos h]
    have := digitChar_toNat h
    simp [digitsToNat]
    omega
  | case2 n h ih =>
    rw [natChars, dif_neg h]
    rw [digitsToNat_append, ih, digitChar_toNat (Nat.mod_lt n (by omega))]
    omega

theorem takeWhile_digits (ds rest : List Char) (hds : ∀ c ∈ ds, c.isDigit)
    (hrest : noDigitHead rest) : List.takeWhile Char.isDigit (ds ++ rest) = ds := by
  induction ds with
  | nil =>
    cases rest with
    | nil => simp
    | cons c rest' =>
      simp only [noDigitHead] at hrest
      simp [List.takeWhile_cons, hrest]
  | cons d ds' ih =>
    have hd : d.isDigit := hds d (by simp)
    simp only [List.cons_append, List.takeWhile_cons, hd, if_pos]
    rw [ih (fun c hc => hds c (by simp [hc]))]

theorem dropWhile_digits (ds rest : List Char) (hds : ∀ c ∈ ds, c.isDigit)
    (hrest : noDigitHead rest) : List.dropWhile Char.isDigit (ds ++ rest) = rest := by
  induction ds with
  | nil =>
    cases rest with
    | nil => simp
    | cons c rest' =>
      simp only [noDigitHead] at hrest
      simp [List.dropWhile_cons, hrest]
  | cons d ds' ih =>
    have hd : d.isDigit := hds d (by simp)
    simp only [List.cons_append, List.dropWhile_cons, hd, if_pos]
    exact ih (fun c hc => hds c (by simp [hc]))

theorem span_digits (ds rest : List Char) (hds : ∀ c ∈ ds, c.isDigit)
    (hrest : noDigitHead rest) :
    List.span Char.isDigit (ds ++ rest) = (ds, rest) := by
  rw [List.span_eq_take_drop, takeWhile_digits ds rest hds hrest,
    dropWhile_digits ds rest hds hrest]

theorem span_append (p : Char → Bool) (cs ds rest : List Char)
    (h : List.span p cs = (ds, rest)) : cs = ds ++ rest := by
  rw [List.span_eq_take_drop] at h
  obtain ⟨rfl, rfl⟩ := Prod.mk.injEq .. ▸ h
  exact (List.takeWhile_append_dropWhile (p := p) (l := cs)).symm

theorem span_all_digits (cs ds rest : List Char)
    (h : List.span Char.isDigit cs = (ds, rest)) : ∀ c ∈ ds, c.isDigit := by
  rw [List.span_eq_take_drop] at h
  obtain ⟨rfl, rfl⟩ := Prod.mk.injEq .. ▸ h
  intro c hc
  exact List.mem_takeWhile_imp hc

theorem span_cons_digit (c : Char) (cs ds rest : List Char)
    (h : List.span Char.isDigit (c :: cs) = (ds, rest)) (hc : c.isDigit) :
    ds ≠ [] := by
  rw [List.span_eq_take_drop] at h
  obtain ⟨rfl, rfl⟩ := Prod.mk.injEq .. ▸ h
  simp [List.takeWhile_cons, hc]

theorem strChars_strEsc :
    ∀ (s rest : List Char), strChars (strEsc s ++ '"' :: rest) = some (s, rest) := by
  intro s
  induction s with
  | nil =>
    intro rest
    simpa [strEsc] using strChars_quote rest
  | cons c cs ih =>
    intro rest
    by_cases h1 : c = '"'
    · subst h1
      have hesc : strEsc ('"' :: cs) ++ '"' :: rest =
          '\\' :: '"' :: (strEsc cs ++ '"' :: rest) := by
        simp [strEsc, escapeChar]
      rw [hesc, strChars_esc_some '"' _ '"' (by simp [unescape]), ih]
      rfl
    · by_cases h2 : c = '\\'
      · subst h2
        have hesc : strEsc ('\\' :: cs) ++ '"' :: rest =
            '\\' :: '\\' :: (strEsc cs ++ '"' :: rest) := by
          simp [strEsc, escapeChar]
        rw [hesc, strChars_esc_some '\\' _ '\\' (by simp [unescape]), ih]
        rfl
      · have hesc : strEsc (c :: cs) ++ '"' :: rest =
            c :: (strEsc cs ++ '"' :: rest) := by
          simp [strEsc, escapeChar, h1, h2]
        rw [hesc, strChars_raw c _ h1 h2, ih]
        rfl

theorem JsonValue.indOn (P : JsonValue → Prop)
    (hnull : P .null) (hbool : ∀ b, P (.bool b)) (hnum : ∀ n, P (.num n))
    (hstr : ∀ s, P (.str s))
    (harr : ∀ vs, (∀ v ∈ vs, P v) → P (.arr vs))
    (hobj : ∀ ms, (∀ m ∈ ms, P m.2) → P (.obj ms)) : ∀ v, P v := by
  have key : ∀ n v, sizeOf v ≤ n → P v := by
    intro n
    induction n with
    | zero =>
      intro v hv
      cases v <;> simp at hv
    | succ n ih =>
      intro v hv
      cases v with
      | null => exact hnull
      | bool b => exact hbool b
      | num k => exact hnum k
      | str s => exact hstr s
      | arr vs =>
        refine harr vs (fun v hv' => ih v ?_)
        have h1 : sizeOf v < sizeOf vs := List.sizeOf_lt_of_mem hv'
        have h2 : sizeOf (JsonValue.arr vs) = 1 + sizeOf vs := by simp
        omega
      | obj ms =>
        refine hobj ms (fun m hm => ih m.2 ?_)
        have h1 : sizeOf m < sizeOf ms := List.sizeOf_lt_of_mem hm
        have h2 : sizeOf m.2 < sizeOf m := by
          cases m
          simp
        have h3 : sizeOf (JsonValue.obj ms) = 1 + sizeOf ms := by simp
        omega
  intro v
  exact key (sizeOf v) v le_rfl

theorem skipWs_eq_self : ∀ {l : List Char}, headNotWs l → skipWs l = l := by
  intro l h
  cases l with
  | nil => rfl
  | cons c cs => exact skipWs_not_ws cs h

theorem digit_not_ws {c : Char} (h : c.isDigit = true) : isWs c = false := by
  by_contra hw
  have hw' : isWs c = true := by
    cases hc : isWs c
    · exact absurd hc hw
    · rfl
  simp only [isWs, Bool.or_eq_true, decide_eq_true_eq] at hw'
  rcases hw' with ((rfl | rfl) | rfl) | rfl <;> simp [Char.isDigit] at h

theorem natChars_cons (n : Nat) : ∃ d t, natChars n = d :: t ∧ d.isDigit := by
  induction n using natChars.induct with
  | case1 n h =>
    exact ⟨Nat.digitChar n, [], by rw [natChars, dif_pos h], digitChar_isDigit h⟩
  | case2 n h ih =>
    obtain ⟨d, t, heq, hd⟩ := ih
    exact ⟨d, t ++ [Nat.digitChar (n % 10)],
      by rw [natChars, dif_neg h, heq]; simp, hd⟩

theorem skipWs_encodeVal (v : JsonValue) (rest : List Char) :
    skipWs (encodeVal v ++ rest) = encodeVal v ++ rest := by
  apply skipWs_eq_self
  cases v with
  | null => simp [encodeVal, headNotWs, isWs]
  | bool b => cases b <;> simp [encodeVal, headNotWs, isWs]
  | num n =>
    simp only [encodeVal, intChars]
    split
    · simp [headNotWs, isWs]
    · obtain ⟨d, t, heq, hd⟩ := natChars_cons n.toNat
      rw [heq]
      simpa [headNotWs] using digit_not_ws hd
  | str s => simp [encodeVal, headNotWs, isWs]
  | arr vs => cases vs <;> simp [encodeVal, headNotWs, isWs]
  | obj ms => cases ms <;> simp [encodeVal, headNotWs, isWs]

theorem noDigitHead_encodeTail (vs : List JsonValue) (rest : List Char) :
    noDigitHead (encodeTail vs ++ ']' :: rest) := by
  cases vs <;> simp [encodeTail, noDigitHead, Char.isDigit]

theorem headNotWs_encodeTail (vs : List JsonValue) (rest : List Char) :
    headNotWs (encodeTail vs ++ ']' :: rest) := by
  cases vs <;> simp [encodeTail, headNotWs, isWs]

theorem noDigitHead_encodeMTail (ms : List (String × JsonValue)) (rest : List Char) :
    noDigitHead (encodeMTail ms ++ '}' :: rest) := by
  cases ms <;> simp [encodeMTail, noDigitHead, Char.isDigit]

theorem headNotWs_encodeMTail (ms : List (String × JsonValue)) (rest : List Char) :
    headNotWs (encodeMTail ms ++ '}' :: rest) := by
  cases ms <;> simp [encodeMTail, headNotWs, isWs]

theorem member_parts (k : String) (v : JsonValue) (X : List Char) :
    encodeMember (k, v) ++ X =
      '"' :: (strEsc k.data ++ '"' :: (':' :: (' ' :: (encodeVal v ++ X)))) := by
  simp [encodeMember]

theorem string_mk_data (s : String) : String.mk s.data = s := by
  cases s
  rfl

theorem member_derivation (k : String) (v : JsonValue) (X : List Char)
    (hv : ∀ r, noDigitHead r → GVal (encodeVal v ++ r) v r)
    (hX : noDigitHead X) :
    ∃ cs1 r1 r2 r3,
      encodeMember (k, v) ++ X = '"' :: cs1 ∧
      strChars cs1 = some (k.data, r1) ∧
      skipWs r1 = ':' :: r2 ∧
      GVal (skipWs r2) v r3 ∧ r3 = X := by
  refine ⟨strEsc k.data ++ '"' :: (':' :: (' ' :: (encodeVal v ++ X))),
    ':' :: (' ' :: (encodeVal v ++ X)), ' ' :: (encodeVal v ++ X), X, ?_, ?_, ?_, ?_, rfl⟩
  · exact member_parts k v X
  · exact strChars_strEsc k.data (':' :: (' ' :: (encodeVal v ++ X)))
  · exact skipWs_not_ws _ (by decide)
  · rw [skipWs_ws _ (by decide), skipWs_encodeVal]
    exact hv X hX

theorem gmembers_encodeMTail :
    ∀ (ms : List (String × JsonValue)),
      (∀ m ∈ ms, ∀ r, noDigitHead r → GVal (encodeVal m.2 ++ r) m.2 r) →
      ∀ rest, GMembers (encodeMTail ms ++ '}' :: rest) ms rest := by
  intro ms
  induction ms with
  | nil =>
    intro H rest
    simpa [encodeMTail] using GMembers.gnil rest
  | cons m ms' ih =>
    intro H rest
    obtain ⟨k, v⟩ := m
    have hms' : GMembers (encodeMTail ms' ++ '}' :: rest) ms' rest :=
      ih (fun m hm => H m (by simp [hm])) rest
    obtain ⟨cs1, r1, r2, r3, hshape, hstr, hcol, hval, rfl⟩ :=
      member_derivation k v (encodeMTail ms' ++ '}' :: rest)
        (fun r hr => H (k, v) (by simp) r hr) (noDigitHead_encodeMTail ms' rest)
    have hsk : skipWs (' ' :: (encodeMember (k, v) ++ (encodeMTail ms' ++ '}' :: rest)))
        = '"' :: cs1 := by
      rw [skipWs_ws _ (by decide)]
      rw [← hshape]
      cases hm : encodeMember (k, v) with
      | nil => exact absurd hm (by simp [encodeMember])
      | cons c t =>
        have : c = '"' := by
          have := hshape
          rw [hm] at this
          simp at this
          exact this.1
        subst this
        exact skipWs_not_ws _ (by decide)
    have hmem : GMembers (skipWs (encodeMTail ms' ++ '}' :: rest)) ms' rest := by
      rw [skipWs_eq_self (headNotWs_encodeMTail ms' rest)]
      exact hms'
    have hg := GMembers.gcons _ cs1 k.data r1 r2 v _ ms' rest hsk hstr hcol hval hmem
    rw [string_mk_data] at hg
    have hshape2 : encodeMTail ((k, v) :: ms') ++ '}' :: rest =
        ',' :: (' ' :: (encodeMember (k, v) ++ (encodeMTail ms' ++ '}' :: rest))) := by
      simp [encodeMTail]
    rw [hshape2]
    exact hg

theorem gelems_encodeTail :
    ∀ (vs : List JsonValue),
      (∀ v ∈ vs, ∀ r, noDigitHead r → GVal (encodeVal v ++ r) v r) →
      ∀ rest, GElems (encodeTail vs ++ ']' :: rest) vs rest := by
  intro vs
  induction vs with
  | nil =>
    intro H rest
    simpa [encodeTail] using GElems.gnil rest
  | cons v vs' ih =>
    intro H rest
    have hvs' : GElems (encodeTail vs' ++ ']' :: rest) vs' rest :=
      ih (fun v hv => H v (by simp [hv])) rest
    have h1 : GVal (skipWs (' ' :: (encodeVal v ++ (encodeTail vs' ++ ']' :: rest))))
        v (encodeTail vs' ++ ']' :: rest) := by
      rw [skipWs_ws _ (by decide), skipWs_encodeVal]
      exact H v (by simp) _ (noDigitHead_encodeTail vs' rest)
    have h2 : GElems (skipWs (encodeTail vs' ++ ']' :: rest)) vs' rest := by
      rw [skipWs_eq_self (headNotWs_encodeTail vs' rest)]
      exact hvs'
    have hg := GElems.gcons _ v _ vs' rest h1 h2
    have hshape : encodeTail (v :: vs') ++ ']' :: rest =
        ',' :: (' ' :: (encodeVal v ++ (encodeTail vs' ++ ']' :: rest))) := by
      simp [encodeTail]
    rw [hshape]
    exact hg

theorem gval_encodeVal :
    ∀ (v : JsonValue) (rest : List Char), noDigitHead rest →
      GVal (encodeVal v ++ rest) v rest := by
  have main : ∀ v : JsonValue,
      ∀ rest : List Char, noDigitHead rest → GVal (encodeVal v ++ rest) v rest := by
    apply JsonValue.indOn
    · intro rest hrest
      simpa [encodeVal] using GVal.gnull rest
    · intro b rest hrest
      cases b
      · simpa [encodeVal] using GVal.gfalse rest
      · simpa [encodeVal] using GVal.gtrue rest
    · intro n rest hrest
      simp only [encodeVal, intChars]
      split
      · rename_i hneg
        have hspan : List.span Char.isDigit (natChars n.natAbs ++ rest) =
            (natChars n.natAbs, rest) :=
          span_digits _ _ (natChars_all_digits _) hrest
        have hg := GVal.gneg _ _ _ hspan (natChars_ne_nil _)
        have hval : JsonValue.num (-(Int.ofNat (digitsToNat (natChars n.natAbs)))) =
            JsonValue.num n := by
          rw [digitsToNat_natChars]
          congr 1
          simp only [Int.ofNat_eq_coe]
          omega
        rw [hval] at hg
        simpa using hg
      · rename_i hpos
        have hspan : List.span Char.isDigit (natChars n.toNat ++ rest) =
            (natChars n.toNat, rest) :=
          span_digits _ _ (natChars_all_digits _) hrest
        have hg := GVal.gnum _ _ _ hspan (natChars_ne_nil _)
        have hval : JsonValue.num (Int.ofNat (digitsToNat (natChars n.toNat))) =
            JsonValue.num n := by
          rw [digitsToNat_natChars]
          congr 1
          simp only [Int.ofNat_eq_coe]
          omega
        rw [hval] at hg
        exact hg
    · intro s rest hrest
      have hg := GVal.gstr _ _ _ (strChars_strEsc s.data rest)
      rw [string_mk_data] at hg
      simpa [encodeVal] using hg
    · intro vs H rest hrest
      cases vs with
      | nil =>
        have hg := GVal.garrNil (']' :: rest) rest (skipWs_not_ws _ (by decide))
        simpa [encodeVal] using hg
      | cons v vs' =>
        have h1 : GVal (skipWs (encodeVal v ++ (encodeTail vs' ++ ']' :: rest)))
            v (encodeTail vs' ++ ']' :: rest) := by
          rw [skipWs_encodeVal]
          exact H v (by simp) _ (noDigitHead_encodeTail vs' rest)
        have h2 : GElems (skipWs (encodeTail vs' ++ ']' :: rest)) vs' rest := by
          rw [skipWs_eq_self (headNotWs_encodeTail vs' rest)]
          exact gelems_encodeTail vs' (fun v hv => H v (by simp [hv])) rest
        have hg := GVal.garrCons _ v _ vs' rest h1 h2
        have hshape : encodeVal (.arr (v :: vs')) ++ rest =
            '[' :: (encodeVal v ++ (encodeTail vs' ++ ']' :: rest)) := by
          simp [encodeVal]
        rw [hshape]
        exact hg
    · intro ms H rest hrest
      cases ms with
      | nil =>
        have hg := GVal.gobjNil ('}' :: rest) rest (skipWs_not_ws _ (by decide))
        simpa [encodeVal] using hg
      | cons m ms' =>
        obtain ⟨k, v⟩ := m
        obtain ⟨cs1, r1, r2, r3, hshape, hstr, hcol, hval, rfl⟩ :=
          member_derivation k v (encodeMTail ms' ++ '}' :: rest)
            (fun r hr => H (k, v) (by simp) r hr) (noDigitHead_encodeMTail ms' rest)
        have hsk : skipWs (encodeMember (k, v) ++ (encodeMTail ms' ++ '}' :: rest))
            = '"' :: cs1 := by
          rw [← hshape]
          cases hm : encodeMember (k, v) with
          | nil => exact absurd hm (by simp [encodeMember])
          | cons c t =>
            have hc : c = '"' := by
              have h' := hshape
              rw [hm] at h'
              simp at h'
              exact h'.1
            subst hc
            exact skipWs_not_ws _ (by decide)
        have hmem : GMembers (skipWs (encodeMTail ms' ++ '}' :: rest)) ms' rest := by
          rw [skipWs_eq_self (headNotWs_encodeMTail ms' rest)]
          exact gmembers_encodeMTail ms' (fun m hm => H m (by simp [hm])) rest
        have hg := GVal.gobjCons _ cs1 k.data r1 r2 v _ ms' rest hsk hstr hcol hval hmem
        rw [string_mk_data] at hg
        have hshape2 : encodeVal (.obj ((k, v) :: ms')) ++ rest =
            '{' :: (encodeMember (k, v) ++ (encodeMTail ms' ++ '}' :: rest)) := by
          simp [encodeVal]
        rw [hshape2]
        exact hg
  exact main

theorem gval_consume : ∀ n : Nat,
    (∀ cs v rest, cs.length ≤ n → GVal cs v rest → rest.length < cs.length) ∧
    (∀ cs vs rest, cs.length ≤ n → GElems cs vs rest → rest.length < cs.length) ∧
    (∀ cs ms rest, cs.length ≤ n → GMembers cs ms rest → rest.length < cs.length) := by
  intro n
  induction n with
  | zero =>
    refine ⟨?_, ?_, ?_⟩
    · intro cs v rest hlen h
      cases h <;> simp_all
    · intro cs vs rest hlen h
      cases h <;> simp_all
    · intro cs ms rest hlen h
      cases h <;> simp_all
  | succ n ih =>
    obtain ⟨ihv, ihe, ihm⟩ := ih
    refine ⟨?_, ?_, ?_⟩
    · intro cs v rest hlen h
      cases h with
      | gnull rest => simp only [List.cons_append, List.nil_append, List.length_cons]; omega
      | gtrue rest => simp only [List.cons_append, List.nil_append, List.length_cons]; omega
      | gfalse rest => simp only [List.cons_append, List.nil_append, List.length_cons]; omega
      | gstr cs s rest hsc =>
        have := strChars_length cs s rest hsc
        simp only [List.length_cons]
        omega
      | gnum cs ds rest hspan hds =>
        have hcs := span_append _ _ _ _ hspan
        subst hcs
        cases ds with
        | nil => exact absurd rfl hds
        | cons d ds' => simp only [List.cons_append, List.length_cons, List.length_append]; omega
      | gneg cs ds rest hspan hds =>
        have hcs := span_append _ _ _ _ hspan
        subst hcs
        cases ds with
        | nil => exact absurd rfl hds
        | cons d ds' => simp only [List.cons_append, List.length_cons, List.length_append]; omega
      | garrNil cs rest hsk =>
        have h1 : (']' :: rest).length ≤ cs.length := hsk ▸ skipWs_length cs
        simp only [List.length_cons] at h1 ⊢
        omega
      | garrCons cs v r vs rest h1 h2 =>
        simp only [List.length_cons] at hlen ⊢
        have e1 : (skipWs cs).length ≤ cs.length := skipWs_length cs
        have e2 : r.length < (skipWs cs).length := ihv _ _ _ (by omega) h1
        have e3 : (skipWs r).length ≤ r.length := skipWs_length r
        have e4 : rest.length < (skipWs r).length := ihe _ _ _ (by omega) h2
        omega
      | gobjNil cs rest hsk =>
        have h1 : ('}' :: rest).length ≤ cs.length := hsk ▸ skipWs_length cs
        simp only [List.length_cons] at h1 ⊢
        omega
      | gobjCons cs cs1 k r1 r2 v r3 ms rest hsk hstr hcol hval hmem =>
        simp only [List.length_cons] at hlen ⊢
        have e1 : ('"' :: cs1).length ≤ cs.length := hsk ▸ skipWs_length cs
        have e2 : r1.length < cs1.length := strChars_length cs1 k r1 hstr
        have e3 : (':' :: r2).length ≤ r1.length := hcol ▸ skipWs_length r1
        simp only [List.length_cons] at e1 e3
        have e4 : (skipWs r2).length ≤ r2.length := skipWs_length r2
        have e5 : r3.length < (skipWs r2).length := ihv _ _ _ (by omega) hval
        have e6 : (skipWs r3).length ≤ r3.length := skipWs_length r3
        have e7 : rest.length < (skipWs r3).length := ihm _ _ _ (by omega) hmem
        omega
    · intro cs vs rest hlen h
      cases h with
      | gnil rest => simp
      | gcons cs v r vs rest h1 h2 =>
        simp only [List.length_cons] at hlen ⊢
        have e1 : (skipWs cs).length ≤ cs.length := skipWs_length cs
        have e2 : r.length < (skipWs cs).length := ihv _ _ _ (by omega) h1
        have e3 : (skipWs r).length ≤ r.length := skipWs_length r
        have e4 : rest.length < (skipWs r).length := ihe _ _ _ (by omega) h2
        omega
    · intro cs ms rest hlen h
      cases h with
      | gnil rest => simp
      | gcons cs cs1 k r1 r2 v r3 ms rest hsk hstr hcol hval hmem =>
        simp only [List.length_cons] at hlen ⊢
        have e1 : ('"' :: cs1).length ≤ cs.length := hsk ▸ skipWs_length cs
        have e2 : r1.length < cs1.length := strChars_length cs1 k r1 hstr
        have e3 : (':' :: r2).length ≤ r1.length := hcol ▸ skipWs_length r1
        simp only [List.length_cons] at e1 e3
        have e4 : (skipWs r2).length ≤ r2.length := skipWs_length r2
        have e5 : r3.length < (skipWs r2).length := ihv _ _ _ (by omega) hval
        have e6 : (skipWs r3).length ≤ r3.length := skipWs_length r3
        have e7 : rest.length < (skipWs r3).length := ihm _ _ _ (by omega) hmem
        omega

theorem parseVal_null (f : Nat) (rest : List Char) :
    parseVal (f + 1) ('n' :: 'u' :: 'l' :: 'l' :: rest) = some (.null, rest) := by
  rw [parseVal.eq_def]
  simp [lit]

theorem parseVal_true (f : Nat) (rest : List Char) :
    parseVal (f + 1) ('t' :: 'r' :: 'u' :: 'e' :: rest) = some (.bool true, rest) := by
  rw [parseVal.eq_def]
  simp [lit]

theorem parseVal_false (f : Nat) (rest : List Char) :
    parseVal (f + 1) ('f' :: 'a' :: 'l' :: 's' :: 'e' :: rest) = some (.bool false, rest) := by
  rw [parseVal.eq_def]
  simp [lit]

theorem parseVal_str (f : Nat) (cs s rest : List Char) (h : strChars cs = some (s, rest)) :
    parseVal (f + 1) ('"' :: cs) = some (.str (String.mk s), rest) := by
  rw [parseVal.eq_def]
  simp [h]

theorem parseVal_neg (f : Nat) (cs ds rest : List Char)
    (h : List.span Char.isDigit cs = (ds, rest)) (hds : ds ≠ []) :
    parseVal (f + 1) ('-' :: cs) =
      some (.num (-(Int.ofNat (digitsToNat ds))), rest) := by
  rw [parseVal.eq_def]
  rw [List.span_eq_take_drop, Prod.mk.injEq] at h
  obtain ⟨h1, h2⟩ := h
  subst h1
  subst h2
  simp [hds]

theorem parseVal_digit (f : Nat) (c : Char) (cs ds rest : List Char)
    (hc : c.isDigit = true) (h : List.span Char.isDigit (c :: cs) = (ds, rest)) :
    parseVal (f + 1) (c :: cs) = some (.num (Int.ofNat (digitsToNat ds)), rest) := by
  have h1 : c ≠ 'n' := by rintro rfl; exact absurd hc (by decide)
  have h2 : c ≠ 't' := by rintro rfl; exact absurd hc (by decide)
  have h3 : c ≠ 'f' := by rintro rfl; exact absurd hc (by decide)
  have h4 : c ≠ '"' := by rintro rfl; exact absurd hc (by decide)
  have h5 : c ≠ '-' := by rintro rfl; exact absurd hc (by decide)
  rw [parseVal.eq_def]
  rw [List.span_eq_take_drop, Prod.mk.injEq] at h
  obtain ⟨h1', h2'⟩ := h
  subst h1'
  subst h2'
  simp [h1, h2, h3, h4, h5, hc, List.takeWhile_cons, List.dropWhile_cons]

theorem parseVal_arr_nil (f : Nat) (cs rest : List Char) (h : skipWs cs = ']' :: rest) :
    parseVal (f + 1) ('[' :: cs) = some (.arr [], rest) := by
  rw [parseVal.eq_def]
  simp [h]

theorem parseVal_arr_cons (f : Nat) (cs : List Char) (c' : Char) (cs'' r1 r2 : List Char)
    (v : JsonValue) (vs : List JsonValue)
    (h : skipWs cs = c' :: cs'') (hne : c' ≠ ']')
    (hv : parseVal f (c' :: cs'') = some (v, r1))
    (he : parseElems f (skipWs r1) = some (vs, r2)) :
    parseVal (f + 1) ('[' :: cs) = some (.arr (v :: vs), r2) := by
  rw [parseVal.eq_def]
  simp only [h, Char.reduceEq, show ('[').isDigit = false from rfl, Bool.false_eq_true,
    reduceIte]
  split
  · rename_i heq
    rw [List.cons.injEq] at heq
    exact absurd heq.1 hne
  · simp [hv, he]

theorem parseVal_obj_nil (f : Nat) (cs rest : List Char) (h : skipWs cs = '}' :: rest) :
    parseVal (f + 1) ('{' :: cs) = some (.obj [], rest) := by
  rw [parseVal.eq_def]
  simp [h]

theorem parseVal_obj_cons (f : Nat) (cs cs1 k r1 r2 r3 r4 : List Char)
    (v : JsonValue) (ms : List (String × JsonValue))
    (hsk : skipWs cs = '"' :: cs1) (hstr : strChars cs1 = some (k, r1))
    (hcol : skipWs r1 = ':' :: r2)
    (hv : parseVal f (skipWs r2) = some (v, r3))
    (hm : parseMembers f (skipWs r3) = some (ms, r4)) :
    parseVal (f + 1) ('{' :: cs) = some (.obj ((String.mk k, v) :: ms), r4) := by
  rw [parseVal.eq_def]
  simp [hsk, hstr, hcol, hv, hm]

theorem parseElems_rb (f : Nat) (cs : List Char) :
    parseElems (f + 1) (']' :: cs) = some ([], cs) := by
  rw [parseElems.eq_def]
  simp

theorem parseElems_comma (f : Nat) (cs r1 r2 : List Char) (v : JsonValue)
    (vs : List JsonValue)
    (hv : parseVal f (skipWs cs) = some (v, r1))
    (he : parseElems f (skipWs r1) = some (vs, r2)) :
    parseElems (f + 1) (',' :: cs) = some (v :: vs, r2) := by
  rw [parseElems.eq_def]
  simp [hv, he]

theorem parseMembers_rb (f : Nat) (cs : List Char) :
    parseMembers (f + 1) ('}' :: cs) = some ([], cs) := by
  rw [parseMembers.eq_def]
  simp

theorem parseMembers_comma (f : Nat) (cs cs1 k r1 r2 r3 r4 : List Char)
    (v : JsonValue) (ms : List (String × JsonValue))
    (hsk : skipWs cs = '"' :: cs1) (hstr : strChars cs1 = some (k, r1))
    (hcol : skipWs r1 = ':' :: r2)
    (hv : parseVal f (skipWs r2) = some (v, r3))
    (hm : parseMembers f (skipWs r3) = some (ms, r4)) :
    parseMembers (f + 1) (',' :: cs) = some ((String.mk k, v) :: ms, r4) := by
  rw [parseMembers.eq_def]
  simp [hsk, hstr, hcol, hv, hm]

theorem gval_head (cs : List Char) (v : JsonValue) (rest : List Char) (h : GVal cs v rest) :
    ∃ c cs', cs = c :: cs' ∧ c ≠ ']' ∧ c ≠ '}' := by
  cases h with
  | gnull rest => exact ⟨'n', _, rfl, by decide, by decide⟩
  | gtrue rest => exact ⟨'t', _, rfl, by decide, by decide⟩
  | gfalse rest => exact ⟨'f', _, rfl, by decide, by decide⟩
  | gstr cs s rest hsc => exact ⟨'"', cs, rfl, by decide, by decide⟩
  | gnum cs ds rest hspan hds =>
    have hcs := span_append _ _ _ _ hspan
    cases ds with
    | nil => exact absurd rfl hds
    | cons d ds' =>
      have hd : d.isDigit := span_all_digits _ _ _ hspan d (by simp)
      refine ⟨d, ds' ++ rest, by rw [hcs]; rfl, ?_, ?_⟩
      · rintro rfl
        exact absurd hd (by decide)
      · rintro rfl
        exact absurd hd (by decide)
  | gneg cs ds rest hspan hds => exact ⟨'-', cs, rfl, by decide, by decide⟩
  | garrNil cs rest hsk => exact ⟨'[', cs, rfl, by decide, by decide⟩
  | garrCons cs v r vs rest h1 h2 => exact ⟨'[', cs, rfl, by decide, by decide⟩
  | gobjNil cs rest hsk => exact ⟨'{', cs, rfl, by decide, by decide⟩
  | gobjCons cs cs1 k r1 r2 v r3 ms rest hsk hstr hcol hval hmem =>
    exact ⟨'{', cs, rfl, by decide, by decide⟩

theorem parse_complete : ∀ n : Nat,
    (∀ cs v rest, cs.length ≤ n → GVal cs v rest →
      ∀ f, cs.length < f → parseVal f cs = some (v, rest)) ∧
    (∀ cs vs rest, cs.length ≤ n → GElems cs vs rest →
      ∀ f, cs.length < f → parseElems f cs = some (vs, rest)) ∧
    (∀ cs ms rest, cs.length ≤ n → GMembers cs ms rest →
      ∀ f, cs.length < f → parseMembers f cs = some (ms, rest)) := by
  intro n
  induction n with
  | zero =>
    refine ⟨?_, ?_, ?_⟩
    · intro cs v rest hlen h
      cases h <;> simp_all
    · intro cs vs rest hlen h
      cases h <;> simp_all
    · intro cs ms rest hlen h
      cases h <;> simp_all
  | succ n ih =>
    obtain ⟨ihv, ihe, ihm⟩ := ih
    refine ⟨?_, ?_, ?_⟩
    · intro cs v rest hlen h f hf
      cases f with
      | zero => exact absurd hf (by omega)
      | succ f =>
        cases h with
        | gnull rest => exact parseVal_null f rest
        | gtrue rest => exact parseVal_true f rest
        | gfalse rest => exact parseVal_false f rest
        | gstr cs s rest hsc => exact parseVal_str f cs s rest hsc
        | gnum cs ds rest hspan hds =>
          have hcs := span_append _ _ _ _ hspan
          cases ds with
          | nil => exact absurd rfl hds
          | cons d ds' =>
            have hd : d.isDigit := span_all_digits _ _ _ hspan d (by simp)
            subst hcs
            exact parseVal_digit f d (ds' ++ rest) (d :: ds') rest hd hspan
        | gneg cs ds rest hspan hds => exact parseVal_neg f cs ds rest hspan hds
        | garrNil cs rest hsk => exact parseVal_arr_nil f cs rest hsk
        | garrCons cs v r vs rest h1 h2 =>
          obtain ⟨c', cs'', hsk, hne1, hne2⟩ := gval_head _ _ _ h1
          simp only [List.length_cons] at hlen hf
          have e1 : (skipWs cs).length ≤ cs.length := skipWs_length cs
          have e2 : r.length < (skipWs cs).length :=
            (gval_consume (skipWs cs).length).1 _ _ _ le_rfl h1
          have e3 : (skipWs r).length ≤ r.length := skipWs_length r
          have hv' := ihv (skipWs cs) v r (by omega) h1 f (by omega)
          have he' := ihe (skipWs r) vs rest (by omega) h2 f (by omega)
          rw [hsk] at hv'
          exact parseVal_arr_cons f cs c' cs'' r rest v vs hsk hne1 hv' he'
        | gobjNil cs rest hsk => exact parseVal_obj_nil f cs rest hsk
        | gobjCons cs cs1 k r1 r2 v r3 ms rest hsk hstr hcol hval hmem =>
          simp only [List.length_cons] at hlen hf
          have e1 : ('"' :: cs1).length ≤ cs.length := hsk ▸ skipWs_length cs
          have e2 : r1.length < cs1.length := strChars_length cs1 k r1 hstr
          have e3 : (':' :: r2).length ≤ r1.length := hcol ▸ skipWs_length r1
          simp only [List.length_cons] at e1 e3
          have e4 : (skipWs r2).length ≤ r2.length := skipWs_length r2
          have e5 : r3.length < (skipWs r2).length :=
            (gval_consume (skipWs r2).length).1 _ _ _ le_rfl hval
          have e6 : (skipWs r3).length ≤ r3.length := skipWs_length r3
          have hv' := ihv (skipWs r2) v r3 (by omega) hval f (by omega)
          have hm' := ihm (skipWs r3) ms rest (by omega) hmem f (by omega)
          exact parseVal_obj_cons f cs cs1 k r1 r2 r3 rest v ms hsk hstr hcol hv' hm'
    · intro cs vs rest hlen h f hf
      cases f with
      | zero => exact absurd hf (by omega)
      | succ f =>
        cases h with
        | gnil rest => exact parseElems_rb f rest
        | gcons cs v r vs rest h1 h2 =>
          simp only [List.length_cons] at hlen hf
          have e1 : (skipWs cs).length ≤ cs.length := skipWs_length cs
          have e2 : r.length < (skipWs cs).length :=
            (gval_consume (skipWs cs).length).1 _ _ _ le_rfl h1
          have e3 : (skipWs r).length ≤ r.length := skipWs_length r
          have hv' := ihv (skipWs cs) v r (by omega) h1 f (by omega)
          have he' := ihe (skipWs r) vs rest (by omega) h2 f (by omega)
          exact parseElems_comma f cs r rest v vs hv' he'
    · intro cs ms rest hlen h f hf
      cases f with
      | zero => exact absurd hf (by omega)
      | succ f =>
        cases h with
        | gnil rest => exact parseMembers_rb f rest
        | gcons cs cs1 k r1 r2 v r3 ms rest hsk hstr hcol hval hmem =>
          simp only [List.length_cons] at hlen hf
          have e1 : ('"' :: cs1).length ≤ cs.length := hsk ▸ skipWs_length cs
          have e2 : r1.length < cs1.length := strChars_length cs1 k r1 hstr
          have e3 : (':' :: r2).length ≤ r1.length := hcol ▸ skipWs_length r1
          simp only [List.length_cons] at e1 e3
          have e4 : (skipWs r2).length ≤ r2.length := skipWs_length r2
          have e5 : r3.length < (skipWs r2).length :=
            (gval_consume (skipWs r2).length).1 _ _ _ le_rfl hval
          have e6 : (skipWs r3).length ≤ r3.length := skipWs_length r3
          have hv' := ihv (skipWs r2) v r3 (by omega) hval f (by omega)
          have hm' := ihm (skipWs r3) ms rest (by omega) hmem f (by omega)
          exact parseMembers_comma f cs cs1 k r1 r2 r3 rest v ms hsk hstr hcol hv' hm'

theorem parse_sound : ∀ f : Nat,
    (∀ cs v rest, parseVal f cs = some (v, rest) → GVal cs v rest) ∧
    (∀ cs vs rest, parseElems f cs = some (vs, rest) → GElems cs vs rest) ∧
    (∀ cs ms rest, parseMembers f cs = some (ms, rest) → GMembers cs ms rest) := by
  intro f
  induction f with
  | zero =>
    refine ⟨?_, ?_, ?_⟩
    · intro cs v rest h
      rw [parseVal.eq_def] at h
      simp at h
    · intro cs vs rest h
      rw [parseElems.eq_def] at h
      simp at h
    · intro cs ms rest h
      rw [parseMembers.eq_def] at h
      simp at h
  | succ f ih =>
    obtain ⟨ihv, ihe, ihm⟩ := ih
    refine ⟨?_, ?_, ?_⟩
    · intro cs v rest h
      cases cs with
      | nil =>
        rw [parseVal.eq_def] at h
        simp at h
      | cons c cs' =>
        rw [parseVal.eq_def] at h
        split at h
        · exact Option.noConfusion h
        · exact Option.noConfusion h
        rename_i f2 c2 cs2 heq1 heq2
        injection heq1 with heqf
        subst heqf
        injection heq2 with heqc heqcs
        subst heqc
        subst heqcs
        by_cases h1 : c = 'n'
        · subst h1
          rw [if_pos rfl] at h
          obtain ⟨r, hlit, heq⟩ := Option.map_eq_some'.mp h
          rw [lit_eq_some] at hlit
          subst hlit
          injection heq with hv hr
          subst hv
          subst hr
          exact GVal.gnull r
        · rw [if_neg h1] at h
          by_cases h2 : c = 't'
          · subst h2
            rw [if_pos rfl] at h
            obtain ⟨r, hlit, heq⟩ := Option.map_eq_some'.mp h
            rw [lit_eq_some] at hlit
            subst hlit
            injection heq with hv hr
            subst hv
            subst hr
            exact GVal.gtrue r
          · rw [if_neg h2] at h
            by_cases h3 : c = 'f'
            · subst h3
              rw [if_pos rfl] at h
              obtain ⟨r, hlit, heq⟩ := Option.map_eq_some'.mp h
              rw [lit_eq_some] at hlit
              subst hlit
              injection heq with hv hr
              subst hv
              subst hr
              exact GVal.gfalse r
            · rw [if_neg h3] at h
              by_cases h4 : c = '"'
              · subst h4
                rw [if_pos rfl] at h
                obtain ⟨⟨s, r⟩, hsc, heq⟩ := Option.map_eq_some'.mp h
                injection heq with hv hr
                subst hv
                subst hr
                exact GVal.gstr cs' s r hsc
              · rw [if_neg h4] at h
                by_cases h5 : c = '-'
                · subst h5
                  rw [if_pos rfl] at h
                  split at h
                  rename_i ds rest0 heq
                  split at h
                  · simp at h
                  · rename_i hni
                    simp only [Option.some.injEq, Prod.mk.injEq] at h
                    obtain ⟨rfl, rfl⟩ := h
                    exact GVal.gneg cs' ds rest0 heq
                      (fun hnil => hni (by simp [hnil]))
                · rw [if_neg h5] at h
                  by_cases h6 : c.isDigit
                  · rw [if_pos h6] at h
                    split at h
                    rename_i ds rest0 heq
                    simp only [Option.some.injEq, Prod.mk.injEq] at h
                    obtain ⟨rfl, rfl⟩ := h
                    exact GVal.gnum _ ds rest0 heq
                      (span_cons_digit c cs' ds rest0 heq h6)
                  · rw [if_neg h6] at h
                    by_cases h7 : c = '['
                    · subst h7
                      rw [if_pos rfl] at h
                      split at h
                      · rename_i rest0 heq
                        simp only [Option.some.injEq, Prod.mk.injEq] at h
                        obtain ⟨rfl, rfl⟩ := h
                        exact GVal.garrNil cs' rest0 heq
                      · split at h
                        · simp at h
                        · rename_i heq2
                          split at h
                          · simp at h
                          · rename_i heq3
                            simp only [Option.some.injEq, Prod.mk.injEq] at h
                            obtain ⟨rfl, rfl⟩ := h
                            exact GVal.garrCons cs' _ _ _ _
                              (ihv _ _ _ heq2) (ihe _ _ _ heq3)
                    · rw [if_neg h7] at h
                      by_cases h8 : c = '{'
                      · subst h8
                        rw [if_pos rfl] at h
                        split at h
                        · rename_i rest0 heq
                          simp only [Option.some.injEq, Prod.mk.injEq] at h
                          obtain ⟨rfl, rfl⟩ := h
                          exact GVal.gobjNil cs' rest0 heq
                        · rename_i cs1 heqsk
                          split at h
                          · simp at h
                          · rename_i k r1 heqstr
                            split at h
                            · rename_i r2 heqcol
                              split at h
                              · simp at h
                              · rename_i v1 r3 heqv
                                split at h
                                · simp at h
                                · rename_i ms r4 heqm
                                  simp only [Option.some.injEq, Prod.mk.injEq] at h
                                  obtain ⟨rfl, rfl⟩ := h
                                  exact GVal.gobjCons cs' cs1 k r1 r2 v1 r3 ms r4
                                    heqsk heqstr heqcol (ihv _ _ _ heqv) (ihm _ _ _ heqm)
                            · simp at h
                        · simp at h
                      · rw [if_neg h8] at h
                        simp at h
    · intro cs vs rest h
      cases cs with
      | nil =>
        rw [parseElems.eq_def] at h
        simp at h
      | cons c cs' =>
        rw [parseElems.eq_def] at h
        split at h
        · exact Option.noConfusion h
        · exact Option.noConfusion h
        rename_i f2 c2 cs2 heq1 heq2
        injection heq1 with heqf
        subst heqf
        injection heq2 with heqc heqcs
        subst heqc
        subst heqcs
        by_cases h1 : c = ']'
        · subst h1
          rw [if_pos rfl] at h
          simp only [Option.some.injEq, Prod.mk.injEq] at h
          obtain ⟨rfl, rfl⟩ := h
          exact GElems.gnil cs'
        · rw [if_neg h1] at h
          by_cases h2 : c = ','
          · subst h2
            rw [if_pos rfl] at h
            split at h
            · simp at h
            · rename_i v1 r heqv
              split at h
              · simp at h
              · rename_i vs1 r2 heqe
                simp only [Option.some.injEq, Prod.mk.injEq] at h
                obtain ⟨rfl, rfl⟩ := h
                exact GElems.gcons cs' _ _ _ _ (ihv _ _ _ heqv) (ihe _ _ _ heqe)
          · rw [if_neg h2] at h
            simp at h
    · intro cs ms rest h
      cases cs with
      | nil =>
        rw [parseMembers.eq_def] at h
        simp at h
      | cons c cs' =>
        rw [parseMembers.eq_def] at h
        split at h
        · exact Option.noConfusion h
        · exact Option.noConfusion h
        rename_i f2 c2 cs2 heq1 heq2
        injection heq1 with heqf
        subst heqf
        injection heq2 with heqc heqcs
        subst heqc
        subst heqcs
        by_cases h1 : c = '}'
        · subst h1
          rw [if_pos rfl] at h
          simp only [Option.some.injEq, Prod.mk.injEq] at h
          obtain ⟨rfl, rfl⟩ := h
          exact GMembers.gnil cs'
        · rw [if_neg h1] at h
          by_cases h2 : c = ','
          · subst h2
            rw [if_pos rfl] at h
            split at h
            · rename_i cs1 heqsk
              split at h
              · simp at h
              · rename_i k r1 heqstr
                split at h
                · rename_i r2 heqcol
                  split at h
                  · simp at h
                  · rename_i v1 r3 heqv
                    split at h
                    · simp at h
                    · rename_i ms1 r4 heqm
                      simp only [Option.some.injEq, Prod.mk.injEq] at h
                      obtain ⟨rfl, rfl⟩ := h
                      exact GMembers.gcons cs' cs1 k r1 r2 v1 r3 ms1 r4
                        heqsk heqstr heqcol (ihv _ _ _ heqv) (ihm _ _ _ heqm)
                · simp at h
            · simp at h
          · rw [if_neg h2] at h
            simp at h

theorem loads_dumps_eq (v : JsonValue) : Json.loads (Json.dumps v) = some v := by
  have hg : GVal (encodeVal v) v [] := by
    have h := gval_encodeVal v [] (by simp [noDigitHead])
    simpa using h
  have hskip : skipWs (encodeVal v) = encodeVal v := by
    simpa using skipWs_encodeVal v []
  have hc := (parse_complete (encodeVal v).length).1 (encodeVal v) v [] le_rfl hg
    ((Json.dumps v).length + 1) (by
      have hl : (Json.dumps v).length = (encodeVal v).length := rfl
      omega)
  have hdata : (Json.dumps v).data = encodeVal v := rfl
  unfold Json.loads
  rw [hdata, hskip, hc]
  simp [skipWs]

theorem loads_isSome_iff_modelAccepts (s : String) :
    (Json.loads s).isSome ↔ modelAccepts s := by
  constructor
  · intro hsome
    unfold Json.loads at hsome
    rcases hp : parseVal (s.length + 1) (skipWs s.data) with _ | ⟨v, rest⟩
    · rw [hp] at hsome
      simp at hsome
    · rw [hp] at hsome
      by_cases hr : skipWs rest = []
      · exact ⟨v, rest, (parse_sound (s.length + 1)).1 _ _ _ hp, hr⟩
      · simp [hr] at hsome
  · rintro ⟨v, rest, hg, hr⟩
    have hlen : (skipWs s.data).length ≤ s.length := by
      have h1 := skipWs_length s.data
      have h2 : s.data.length = s.length := rfl
      omega
    have hc := (parse_complete (skipWs s.data).length).1 _ _ _ le_rfl hg
      (s.length + 1) (by omega)
    unfold Json.loads
    rw [hc]
    simp [hr]

theorem lookup_none_of_absent (ms : List (String × JsonValue)) (k : String)
    (h : ∀ p ∈ ms, p.1 ≠ k) : ms.lookup k = none := by
  induction ms with
  | nil => rfl
  | cons p t ih =>
    obtain ⟨k', v⟩ := p
    have hk : k' ≠ k := h (k', v) (by simp)
    have hb : (k == k') = false := beq_eq_false_iff_ne.mpr (Ne.symm hk)
    simp only [List.lookup, hb]
    exact ih (fun p hp => h p (by simp [hp]))

theorem lookup_isSome_of_mem (ms : List (String × JsonValue)) (k : String)
    (h : ∃ p ∈ ms, p.1 = k) : (ms.lookup k).isSome := by
  induction ms with
  | nil => simp at h
  | cons p t ih =>
    obtain ⟨k', v⟩ := p
    by_cases hk : k = k'
    · simp [List.lookup, hk]
    · have hb : (k == k') = false := beq_eq_false_iff_ne.mpr hk
      simp only [List.lookup, hb]
      apply ih
      obtain ⟨p, hp, hpe⟩ := h
      rcases List.mem_cons.mp hp with rfl | hmem
      · exact absurd hpe.symm hk
      · exact ⟨p, hmem, hpe⟩

/-- C1: round-trip law of the JSON Codec — for every representable Decoded
JSON Value `v` (null, boolean, number, string, sequence, or string-keyed
mapping), decoding the encoding of `v` yields `v` itself:
`loads (dumps v) = some v`, syntactic equality, hence equivalence. -/
theorem json_roundtrip : ∀ v : JsonValue, Json.loads (Json.dumps v) = some v :=
  fun v => loads_dumps_eq v

/-- The modelled decoder fails on the specification's malformed sample
text, returning no value at all. -/
theorem loads_malformed_example : Json.loads "\x7bnot json" = none :=
  rfl

/-- C3: a response with a non-2xx status code is not treated as an error —
the request-then-decode flow returns the status code as an ordinary
integer for the caller to interpret, and body decoding proceeds with no
implicit status-code validation. -/
theorem non2xx_surfaced_not_error :
    ∀ (net : Network) (url : String) (params : List (String × String))
      (r : Response),
      net url params = .ok r →
      ¬(200 ≤ r.status_code ∧ r.status_code ≤ 299) →
      getAndDecode net url params = .ok (r.status_code, r.json) := by
  intro net url params r hr _
  unfold getAndDecode requestsGet
  rw [hr]

/-- Witness for C3 at a network returning status 404 with a JSON body. -/
theorem non2xx_surfaced_not_error_witness :
    ((fun _ _ => Except.ok (Response.mk 404 issNowHeaders "\x7b\x7d") : Network)
        "http://api.open-notify.org/astros.json" [] =
      Except.ok (Response.mk 404 issNowHeaders "\x7b\x7d")) ∧
    ¬(200 ≤ 404 ∧ 404 ≤ 299) ∧
    getAndDecode (fun _ _ => Except.ok (Response.mk 404 issNowHeaders "\x7b\x7d"))
        "http://api.open-notify.org/astros.json" [] =
      Except.ok (404, some (JsonValue.obj [])) :=
  ⟨rfl, by decide,
    by
      have h := non2xx_surfaced_not_error
        (fun _ _ => Except.ok (Response.mk 404 issNowHeaders "\x7b\x7d"))
        "http://api.open-notify.org/astros.json" [] (Response.mk 404 issNowHeaders "\x7b\x7d")
        rfl (by decide)
      rw [h]
      rfl⟩

/-- C4: a request whose transport fails (unreachable host, DNS failure, or
timeout) fails with that `TransportError`; it never returns any Response,
in particular no default or empty one. -/
theorem transport_failure_propagates :
    ∀ (net : Network) (url : String) (params : List (String × String))
      (e : TransportError),
      net url params = .error e →
      requestsGet net url params = .error e ∧
        ∀ r : Response, requestsGet net url params ≠ .ok r := by
  intro net url params e he
  unfold requestsGet
  rw [he]
  exact ⟨rfl, fun r h => Except.noConfusion h⟩

/-- Witness for C4 at a network that times out. -/
theorem transport_failure_propagates_witness :
    ((fun _ _ => Except.error TransportError.timeout : Network)
        "http://api.open-notify.org/iss-now.json" [] =
      Except.error TransportError.timeout) ∧
    requestsGet (fun _ _ => Except.error TransportError.timeout)
        "http://api.open-notify.org/iss-now.json" [] =
      Except.error TransportError.timeout :=
  ⟨rfl,
    (transport_failure_propagates (fun _ _ => Except.error TransportError.timeout)
      "http://api.open-notify.org/iss-now.json" [] TransportError.timeout rfl).1⟩

/-- C5: `dumps` preserves the element order of every sequence (decoding
its encoding returns the elements in the original order), and for two
mappings with the same key-value pairs in different insertion orders the
encodings denote equal Decoded JSON Values: both decode to mappings whose
pair lists are permutations of one another, which is dictionary equality
for unique string keys. -/
theorem encode_order_law :
    (∀ xs : List JsonValue, Json.loads (Json.dumps (.arr xs)) = some (.arr xs)) ∧
    (∀ m1 m2 : List (String × JsonValue), m1.Perm m2 →
      ∃ l1 l2, Json.loads (Json.dumps (.obj m1)) = some (.obj l1) ∧
        Json.loads (Json.dumps (.obj m2)) = some (.obj l2) ∧ l1.Perm l2) :=
  ⟨fun xs => loads_dumps_eq (.arr xs),
    fun m1 m2 hperm =>
      ⟨m1, m2, loads_dumps_eq (.obj m1), loads_dumps_eq (.obj m2), hperm⟩⟩

/-- Witness for C5 at the two-key mapping built in both insertion orders. -/
theorem encode_order_law_witness :
    ([("a", JsonValue.num 1), ("b", JsonValue.num 2)].Perm
      [("b", JsonValue.num 2), ("a", JsonValue.num 1)]) ∧
    (∃ l1 l2,
      Json.loads (Json.dumps (.obj [("a", JsonValue.num 1), ("b", JsonValue.num 2)])) =
        some (.obj l1) ∧
      Json.loads (Json.dumps (.obj [("b", JsonValue.num 2), ("a", JsonValue.num 1)])) =
        some (.obj l2) ∧ l1.Perm l2) :=
  ⟨List.Perm.swap _ _ _,
    encode_order_law.2 _ _ (List.Perm.swap _ _ _)⟩

set_option maxRecDepth 20000 in
/-- C6: decoding the recorded astros mock body and accessing the result by
key `number` yields the number 7, and by key `message` the string
`success`. -/
theorem astros_field_access :
    ((Json.loads astrosBody).bind (fun j => j.getKey "number") =
      some (JsonValue.num 7)) ∧
    ((Json.loads astrosBody).bind (fun j => j.getKey "message") =
      some (JsonValue.str "success")) :=
  ⟨rfl, rfl⟩

set_option maxRecDepth 20000 in
/-- C7: decoding the iss-pass mock body and indexing the result as
`response[0]["duration"]` yields the number 611. -/
theorem iss_pass_first_duration :
    (((Json.loads issPassBody).bind (fun j => j.getKey "response")).bind
        (fun j => j.getIdx 0)).bind (fun j => j.getKey "duration") =
      some (JsonValue.num 611) :=
  rfl

/-- C8: the convenience decode operation of a Response yields the decoded
raw body exactly when the `Content-Type` header indicates JSON, and is not
provided otherwise; the notebook's recorded headers do indicate JSON. -/
theorem response_json_iff_content_type :
    (∀ r : Response,
      (r.contentTypeIsJson = true → r.json = Json.loads r.content) ∧
      (r.contentTypeIsJson = false → r.json = none)) ∧
    (Response.mk 200 issNowHeaders "").contentTypeIsJson = true := by
  refine ⟨fun r => ⟨fun h => ?_, fun h => ?_⟩, rfl⟩
  · unfold Response.json
    rw [h]
    simp
  · unfold Response.json
    rw [h]
    simp

/-- Witness for C8 at a JSON response and at a non-JSON response. -/
theorem response_json_iff_content_type_witness :
    ((Response.mk 200 issNowHeaders "\x7b\x7d").contentTypeIsJson = true ∧
      (Response.mk 200 issNowHeaders "\x7b\x7d").json =
        Json.loads (Response.mk 200 issNowHeaders "\x7b\x7d").content) ∧
    ((Response.mk 200 [] "\x7b\x7d").contentTypeIsJson = false ∧
      (Response.mk 200 [] "\x7b\x7d").json = none) :=
  ⟨⟨rfl, (response_json_iff_content_type.1 (Response.mk 200 issNowHeaders "\x7b\x7d")).1 rfl⟩,
    ⟨rfl, (response_json_iff_content_type.1 (Response.mk 200 [] "\x7b\x7d")).2 rfl⟩⟩

/-- C9: accessing a decoded mapping by an absent key fails (`none`, the
raised error) rather than returning a default, indexing a decoded
sequence past its length fails likewise, and under the precondition that
the key is present — as every field access in the program presupposes —
the error branch is unreachable. -/
theorem dynamic_access_failure :
    (∀ (ms : List (String × JsonValue)) (k : String),
      (∀ p ∈ ms, p.1 ≠ k) → (JsonValue.obj ms).getKey k = none) ∧
    (∀ (vs : List JsonValue) (i : Nat),
      vs.length ≤ i → (JsonValue.arr vs).getIdx i = none) ∧
    (∀ (ms : List (String × JsonValue)) (k : String),
      (∃ p ∈ ms, p.1 = k) → ((JsonValue.obj ms).getKey k).isSome) := by
  refine ⟨?_, ?_, ?_⟩
  · intro ms k h
    exact lookup_none_of_absent ms k h
  · intro vs i h
    simp only [JsonValue.getIdx]
    exact List.get?_eq_none.mpr h
  · intro ms k h
    exact lookup_isSome_of_mem ms k h

/-- Witness for C9 at a one-key mapping and a two-element sequence. -/
theorem dynamic_access_failure_witness :
    ((∀ p ∈ [("a", JsonValue.num 1)], Prod.fst p ≠ "b") ∧
      (JsonValue.obj [("a", JsonValue.num 1)]).getKey "b" = none) ∧
    (([JsonValue.null, JsonValue.bool true].length ≤ 5) ∧
      (JsonValue.arr [JsonValue.null, JsonValue.bool true]).getIdx 5 = none) ∧
    ((∃ p ∈ [("a", JsonValue.num 1)], Prod.fst p = "a") ∧
      ((JsonValue.obj [("a", JsonValue.num 1)]).getKey "a").isSome) :=
  ⟨⟨by simp, dynamic_access_failure.1 _ _ (by simp)⟩,
    ⟨by simp, dynamic_access_failure.2.1 _ _ (by simp)⟩,
    ⟨⟨("a", JsonValue.num 1), by simp⟩,
      dynamic_access_failure.2.2 _ _ ⟨("a", JsonValue.num 1), by simp⟩⟩⟩

/-- C10: the JSON Codec is deterministic — `dumps` produces identical
texts on equal values and `loads` produces equal values on identical
texts; both are pure functions of their argument alone, with no hidden
state. -/
theorem codec_deterministic :
    (∀ v1 v2 : JsonValue, v1 = v2 → Json.dumps v1 = Json.dumps v2) ∧
    (∀ s1 s2 : String, s1 = s2 → Json.loads s1 = Json.loads s2) :=
  ⟨fun _ _ h => h ▸ rfl, fun _ _ h => h ▸ rfl⟩

/-- Witness for C10 at a concrete value and a concrete text. -/
theorem codec_deterministic_witness :
    (JsonValue.num 7 = JsonValue.num 7 ∧
      Json.dumps (JsonValue.num 7) = Json.dumps (JsonValue.num 7)) ∧
    (("[1]" : String) = "[1]" ∧ Json.loads "[1]" = Json.loads "[1]") :=
  ⟨⟨rfl, codec_deterministic.1 (JsonValue.num 7) (JsonValue.num 7) rfl⟩,
    ⟨rfl, codec_deterministic.2 "[1]" "[1]" rfl⟩⟩
